import Mathlib

/-!
# Verification of the minimime MIME-lookup core

A shallow embedding of `src/lib.rs` of the `minimime` Rust crate.
Strings are modelled as lists of characters (`Str`); Rust's
`str::split_whitespace` is modelled by an accumulator tokenizer;
`HashMap<String, Info>` is modelled by an association list whose
`insert` conses the new binding in front (so `get`, which takes the
first matching binding, sees the most recent one — observationally the
overwrite semantics of `HashMap::insert`).  The two embedded datasets
(`db/ext_mime.db`, `db/content_type_mime.db`) are not part of the
source tree; following the spec they are treated as external inputs,
so database construction is parameterised by two lists of lines.
-/

namespace Minimime

/-- Strings, modelled as lists of characters. -/
abbrev Str := List Char

/-- Shorthand turning a Lean string literal into our character-list model. -/
def str (s : String) : Str := s.data

/-- Rust's `char::is_whitespace`: membership in the Unicode `White_Space`
set of code points. -/
def isRustWhitespace (c : Char) : Bool :=
  c.toNat = 0x09 || c.toNat = 0x0A || c.toNat = 0x0B || c.toNat = 0x0C ||
  c.toNat = 0x0D || c.toNat = 0x20 || c.toNat = 0x85 || c.toNat = 0xA0 ||
  c.toNat = 0x1680 || (0x2000 ≤ c.toNat && c.toNat ≤ 0x200A) ||
  c.toNat = 0x2028 || c.toNat = 0x2029 || c.toNat = 0x202F ||
  c.toNat = 0x205F || c.toNat = 0x3000

/-- Accumulator loop of the tokenizer: `acc` holds the (reversed) characters
of the token currently being read. -/
def tokenizeAux : Str → Str → List Str
  | [], acc => if acc = [] then [] else [acc.reverse]
  | c :: cs, acc =>
    if isRustWhitespace c then
      if acc = [] then tokenizeAux cs [] else acc.reverse :: tokenizeAux cs []
    else
      tokenizeAux cs (c :: acc)

/-- Rust's `str::split_whitespace`: the maximal runs of non-whitespace
characters, in order. -/
def tokenize (s : Str) : List Str := tokenizeAux s []

/-- The `Info` struct of the source: extension, content type and encoding. -/
structure Info where
  extension : Str
  content_type : Str
  encoding : Str
deriving DecidableEq, Repr

instance : Inhabited Info :=
  ⟨{ extension := [], content_type := [], encoding := [] }⟩

/-- `Info::BINARY_ENCODINGS`: encodings that indicate binary file types. -/
def BINARY_ENCODINGS : List Str := [str "base64", str "8bit"]

/-- `Info::new`: split the line on whitespace; if there are at least 3 parts,
build an `Info` from parts 1, 2, 3 (discarding the rest), else `none`. -/
def Info.new (line : Str) : Option Info :=
  match tokenize line with
  | e :: ct :: enc :: _ => some { extension := e, content_type := ct, encoding := enc }
  | _ => none

/-- `Info::is_binary`: whether `encoding` is one of `BINARY_ENCODINGS`. -/
def Info.is_binary (i : Info) : Bool :=
  BINARY_ENCODINGS.contains i.encoding

/-- Model of `HashMap<String, Info>`: an association list; the first binding
for a key is the current one. -/
abbrev StrMap := List (Str × Info)

/-- `HashMap::insert` (overwrite semantics): the new binding shadows any
older binding of the same key. -/
def StrMap.insert (m : StrMap) (k : Str) (v : Info) : StrMap :=
  (k, v) :: m

/-- `HashMap::get`: the most recent binding of `k`, if any. -/
def StrMap.get (m : StrMap) (k : Str) : Option Info :=
  (m.find? (fun p => p.1 == k)).map (fun p => p.2)

/-- The `Db` struct: the extension index and the content-type index. -/
structure Db where
  ext_db : StrMap
  content_type_db : StrMap

/-- Loop body of `Db::load_ext_db` / `Db::load_content_type_db`: parse the
line with `Info::new`; insert a parsed record keyed by the given field,
skip an unparsable line. -/
def loadStep (key : Info → Str) (m : StrMap) (line : Str) : StrMap :=
  match Info.new line with
  | some info => m.insert (key info) info
  | none => m

/-- Common shape of `Db::load_ext_db` / `Db::load_content_type_db`: parse
each line in order, inserting every parsed record keyed by the given
field. -/
def loadIndex (lines : List Str) (key : Info → Str) : StrMap :=
  lines.foldl (loadStep key) []

/-- The database built from the two datasets: `load_ext_db` keys by
`extension`, `load_content_type_db` keys by `content_type`. -/
def mkDb (extLines ctLines : List Str) : Db :=
  { ext_db := loadIndex extLines (fun i => i.extension)
    content_type_db := loadIndex ctLines (fun i => i.content_type) }

/-- `Db::new`: runs the two loaders (each of which always returns `Ok`)
and returns the populated database. -/
def Db.new (extLines ctLines : List Str) : Except String Db :=
  Except.ok (mkDb extLines ctLines)

/-- Rust's `str::to_lowercase`, restricted to its single-character mapping
(`Char.toLower` performs the ASCII case mapping, which is all the lookups
rely on). -/
def toLowercase (s : Str) : Str := s.map Char.toLower

/-- `Db::lookup_by_extension`: exact lookup first, then retry with the
lowercased extension. -/
def lookupByExtension (db : Db) (e : Str) : Option Info :=
  match db.ext_db.get e with
  | some i => some i
  | none => db.ext_db.get (toLowercase e)

/-- `Db::lookup_by_content_type`: a plain map lookup. -/
def lookupByContentType (db : Db) (ct : Str) : Option Info :=
  db.content_type_db.get ct

/-- Rust `Path::file_name` (Unix): the last path component, unless it is
`..` or there is no normal last component. -/
def fileName (f : Str) : Option Str :=
  match ((f.splitOn '/').filter (fun p => !(p == []) && !(p == ['.']))).getLast? with
  | none => none
  | some comp => if comp = ['.', '.'] then none else some comp

/-- Rust `split_file_at_dot` combined with the `before.and(after)` step of
`Path::extension`: for a file name other than `..`, the portion after the
last `.`, unless there is no `.` or the only `.` is the leading character. -/
def rustExtension (file : Str) : Option Str :=
  if file = ['.', '.'] then none
  else
    let after := (file.reverse.takeWhile (fun c => c ≠ '.')).reverse
    if after.length = file.length then none
    else if after.length + 1 = file.length then none
    else some after

/-- Rust `Path::extension` on the whole path. -/
def pathExtension (f : Str) : Option Str :=
  match fileName f with
  | none => none
  | some file => rustExtension file

/-- `Db::lookup_by_filename`: extract the extension of the path and
delegate to `lookup_by_extension`; no extension means no result. -/
def lookupByFilename (db : Db) (f : Str) : Option Info :=
  match pathExtension f with
  | some e => lookupByExtension db e
  | none => none

/-- Modelled from the spec (claim C1's wording, for comparison with the
code): the substring after the last `.` in the final path segment; absent
when the segment has no `.` or ends in `.` with nothing after. -/
def claimedExtractExt (f : Str) : Option Str :=
  match fileName f with
  | none => none
  | some comp =>
    let after := (comp.reverse.takeWhile (fun c => c ≠ '.')).reverse
    if after.length = comp.length then none
    else if after = [] then none
    else some after

/-- Modelled from the amended claim C1: as `claimedExtractExt`, except a
`.` at position 0 of the component does not begin an extension, and a
component ending in `.` yields the empty extension. -/
def amendedExtractExt (f : Str) : Option Str :=
  match fileName f with
  | none => none
  | some comp =>
    let after := (comp.reverse.takeWhile (fun c => c ≠ '.')).reverse
    if after.length + 2 ≤ comp.length then some after else none

/-- A list made of whitespace characters only. -/
def wsOnly (l : Str) : Bool := l.all isRustWhitespace

/-- A well-formed token: non-empty and free of whitespace characters. -/
def tokOK (t : Str) : Bool := !t.isEmpty && t.all (fun c => !isRustWhitespace c)

/-- Building a line from tokens: a leading run, then each token followed by
its separator run. -/
def assemble : Str → List (Str × Str) → Str
  | lead, [] => lead
  | lead, (t, sep) :: rest => lead ++ t ++ assemble sep rest

/-- Validity of the token/separator alternation fed to `assemble`: tokens
are non-empty and whitespace-free, separators are whitespace runs, and
every separator between two tokens is non-empty. -/
def piecesValid : List (Str × Str) → Bool
  | [] => true
  | (t, sep) :: rest =>
    tokOK t && wsOnly sep && (rest.isEmpty || !sep.isEmpty) && piecesValid rest

theorem tokenizeAux_append_nonWs (t : Str)
    (ht : t.all (fun c => !isRustWhitespace c) = true) :
    ∀ cs acc : Str, tokenizeAux (t ++ cs) acc = tokenizeAux cs (t.reverse ++ acc) := by
  induction t with
  | nil => intro cs acc; simp
  | cons c t ih =>
    intro cs acc
    simp only [List.all_cons, Bool.and_eq_true, Bool.not_eq_true'] at ht
    simp only [List.cons_append, tokenizeAux, ht.1, Bool.false_eq_true, if_false,
      List.append_eq]
    rw [ih ht.2]
    simp [List.append_assoc]

theorem tokenizeAux_skipWs (w : Str) (hw : wsOnly w = true) :
    ∀ cs : Str, tokenizeAux (w ++ cs) [] = tokenizeAux cs [] := by
  induction w with
  | nil => intro cs; rfl
  | cons c w ih =>
    intro cs
    simp only [wsOnly, List.all_cons, Bool.and_eq_true] at hw
    simp only [List.cons_append, tokenizeAux, hw.1, if_true, if_pos rfl]
    exact ih hw.2 cs

theorem tokenize_wsOnly (w : Str) (hw : wsOnly w = true) : tokenize w = [] := by
  have h := tokenizeAux_skipWs w hw []
  rw [List.append_nil] at h
  exact h

theorem tokenize_tok_append (t cs : Str) (ht : tokOK t = true)
    (hcs : cs = [] ∨ ∃ c cs', cs = c :: cs' ∧ isRustWhitespace c = true) :
    tokenize (t ++ cs) = t :: tokenize cs := by
  simp only [tokOK, Bool.and_eq_true] at ht
  have hrevne : t.reverse ≠ [] := by
    have : t ≠ [] := by simpa using ht.1
    simpa using this
  unfold tokenize
  rw [tokenizeAux_append_nonWs t ht.2, List.append_nil]
  rcases hcs with rfl | ⟨c, cs', rfl, hc⟩
  · simp [tokenizeAux, hrevne]
  · simp [tokenizeAux, hc, hrevne]

theorem tokOK_of_acc {acc : Str} (h : acc ≠ [])
    (hacc : acc.all (fun c => !isRustWhitespace c) = true) :
    tokOK acc.reverse = true := by
  simp only [tokOK, Bool.and_eq_true]
  constructor
  · simp only [Bool.not_eq_eq_eq_not, Bool.not_true, List.isEmpty_eq_false,
      ne_eq, List.reverse_eq_nil_iff]
    exact h
  · simpa using hacc

theorem tokenizeAux_tokOK (cs : Str) :
    ∀ acc : Str, acc.all (fun c => !isRustWhitespace c) = true →
      ∀ t ∈ tokenizeAux cs acc, tokOK t = true := by
  induction cs with
  | nil =>
    intro acc hacc t ht
    by_cases h : acc = []
    · subst h; simp [tokenizeAux] at ht
    · simp only [tokenizeAux, if_neg h, List.mem_singleton] at ht
      subst ht
      exact tokOK_of_acc h hacc
  | cons c cs ih =>
    intro acc hacc t ht
    by_cases hc : isRustWhitespace c
    · by_cases h : acc = []
      · subst h
        simp only [tokenizeAux, hc, if_true, if_pos rfl] at ht
        exact ih [] rfl t ht
      · simp only [tokenizeAux, hc, if_true, if_neg h, List.mem_cons] at ht
        rcases ht with rfl | ht
        · exact tokOK_of_acc h hacc
        · exact ih [] rfl t ht
    · simp only [tokenizeAux, hc, Bool.false_eq_true, if_false] at ht
      refine ih (c :: acc) ?_ t ht
      simp only [List.all_cons, Bool.and_eq_true]
      exact ⟨by simpa using hc, hacc⟩

theorem tokenize_tokOK (s : Str) : ∀ t ∈ tokenize s, tokOK t = true :=
  tokenizeAux_tokOK s [] rfl

theorem tokenize_assemble (ps : List (Str × Str)) :
    ∀ lead : Str, wsOnly lead = true → piecesValid ps = true →
      tokenize (assemble lead ps) = ps.map (fun p => p.1) := by
  induction ps with
  | nil =>
    intro lead hl _
    simpa [assemble] using tokenize_wsOnly lead hl
  | cons p rest ih =>
    intro lead hl hp
    obtain ⟨t, sep⟩ := p
    simp only [piecesValid, Bool.and_eq_true] at hp
    obtain ⟨⟨⟨ht, hsep⟩, hgap⟩, hrest⟩ := hp
    simp only [assemble, List.map_cons]
    have hhead : assemble sep rest = [] ∨
        ∃ c cs', assemble sep rest = c :: cs' ∧ isRustWhitespace c = true := by
      cases rest with
      | nil =>
        cases sep with
        | nil => exact Or.inl rfl
        | cons c s =>
          simp only [wsOnly, List.all_cons, Bool.and_eq_true] at hsep
          exact Or.inr ⟨c, s, rfl, hsep.1⟩
      | cons q qs =>
        obtain ⟨qt, qsep⟩ := q
        cases sep with
        | nil => simp at hgap
        | cons c s =>
          simp only [wsOnly, List.all_cons, Bool.and_eq_true] at hsep
          exact Or.inr ⟨c, s ++ (qt ++ assemble qsep qs), by simp [assemble], hsep.1⟩
    have h1 : tokenize (lead ++ (t ++ assemble sep rest)) =
        tokenize (t ++ assemble sep rest) := tokenizeAux_skipWs lead hl _
    rw [List.append_assoc, h1, tokenize_tok_append t (assemble sep rest) ht hhead,
      ih sep hsep hrest]

/-- Modelled from the spec: the record an index holds for key `k` after
processing a list of records in order with last-write-wins overwriting. -/
def specIndex (records : List Info) (key : Info → Str) (k : Str) : Option Info :=
  records.foldl (fun acc i => if key i = k then some i else acc) none

theorem StrMap.get_nil (k : Str) : StrMap.get [] k = none := rfl

theorem StrMap.get_cons (k' : Str) (v : Info) (m : StrMap) (k : Str) :
    StrMap.get ((k', v) :: m) k = if k' = k then some v else StrMap.get m k := by
  by_cases h : k' = k <;> simp [StrMap.get, List.find?_cons, h]

theorem StrMap.get_eq_none_iff (m : StrMap) (k : Str) :
    StrMap.get m k = none ↔ ∀ p ∈ m, p.1 ≠ k := by
  simp [StrMap.get]

theorem StrMap.get_mem {m : StrMap} {k : Str} {v : Info}
    (h : StrMap.get m k = some v) : (k, v) ∈ m := by
  simp only [StrMap.get, Option.map_eq_some'] at h
  obtain ⟨p, hp, hv⟩ := h
  obtain ⟨k1, v1⟩ := p
  have hk : k1 = k := by simpa using List.find?_some hp
  have hm := List.mem_of_find?_eq_some hp
  subst hk
  cases hv
  exact hm

theorem get_foldl_loadStep (lines : List Str) (key : Info → Str) (k : Str) :
    ∀ m : StrMap,
      StrMap.get (lines.foldl (loadStep key) m) k
        = (lines.filterMap Info.new).foldl
            (fun acc i => if key i = k then some i else acc) (StrMap.get m k) := by
  induction lines with
  | nil => intro m; rfl
  | cons line rest ih =>
    intro m
    cases hline : Info.new line with
    | none =>
      simp only [List.foldl_cons, List.filterMap_cons, hline, loadStep]
      exact ih m
    | some i =>
      simp only [List.foldl_cons, List.filterMap_cons, hline, loadStep]
      rw [ih (StrMap.insert m (key i) i)]
      rw [show StrMap.get (StrMap.insert m (key i) i) k
            = if key i = k then some i else StrMap.get m k from
          StrMap.get_cons (key i) i m k]

theorem loadIndex_get (lines : List Str) (key : Info → Str) (k : Str) :
    StrMap.get (loadIndex lines key) k = specIndex (lines.filterMap Info.new) key k :=
  get_foldl_loadStep lines key k []

theorem mem_foldl_loadStep (lines : List Str) (key : Info → Str) :
    ∀ (m : StrMap) (p : Str × Info), p ∈ lines.foldl (loadStep key) m →
      p ∈ m ∨ ∃ line, line ∈ lines ∧ ∃ i, Info.new line = some i ∧ p = (key i, i) := by
  induction lines with
  | nil => intro m p hp; exact Or.inl hp
  | cons line rest ih =>
    intro m p hp
    simp only [List.foldl_cons] at hp
    rcases ih (loadStep key m line) p hp with hm | ⟨l, hl, i, hi, hpi⟩
    · unfold loadStep at hm
      cases hline : Info.new line with
      | none => rw [hline] at hm; exact Or.inl hm
      | some i =>
        rw [hline] at hm
        simp only [StrMap.insert, List.mem_cons] at hm
        rcases hm with rfl | hm
        · exact Or.inr ⟨line, List.mem_cons_self line rest, i, hline, rfl⟩
        · exact Or.inl hm
    · exact Or.inr ⟨l, List.mem_cons_of_mem line hl, i, hi, hpi⟩

theorem mem_loadIndex {lines : List Str} {key : Info → Str} {p : Str × Info}
    (hp : p ∈ loadIndex lines key) :
    ∃ line, line ∈ lines ∧ ∃ i, Info.new line = some i ∧ p = (key i, i) := by
  rcases mem_foldl_loadStep lines key [] p hp with hm | h
  · exact absurd hm (List.not_mem_nil p)
  · exact h

theorem Info.new_some {line : Str} {i : Info} (h : Info.new line = some i) :
    ∃ rest, tokenize line = i.extension :: i.content_type :: i.encoding :: rest := by
  unfold Info.new at h
  rcases htok : tokenize line with _ | ⟨e, _ | ⟨ct, _ | ⟨enc, rest⟩⟩⟩ <;>
    rw [htok] at h <;> simp at h
  subst h
  exact ⟨rest, rfl⟩

theorem Info.new_fields_tokOK {line : Str} {i : Info} (h : Info.new line = some i) :
    tokOK i.extension = true ∧ tokOK i.content_type = true ∧ tokOK i.encoding = true := by
  obtain ⟨rest, htok⟩ := Info.new_some h
  refine ⟨tokenize_tokOK line _ ?_, tokenize_tokOK line _ ?_, tokenize_tokOK line _ ?_⟩ <;>
    rw [htok] <;> simp

theorem tokOK_ne_nil {t : Str} (h : tokOK t = true) : t ≠ [] := by
  simp only [tokOK, Bool.and_eq_true] at h
  simpa using h.1

theorem tokOK_no_ws {t : Str} (h : tokOK t = true) :
    ∀ c ∈ t, isRustWhitespace c = false := by
  simp only [tokOK, Bool.and_eq_true, List.all_eq_true] at h
  intro c hc
  simpa using h.2 c hc

theorem mem_ext_db {a b : List Str} {p : Str × Info}
    (hp : p ∈ (mkDb a b).ext_db) :
    ∃ line, line ∈ a ∧ ∃ i, Info.new line = some i ∧ p = (i.extension, i) :=
  mem_loadIndex hp

theorem mem_ct_db {a b : List Str} {p : Str × Info}
    (hp : p ∈ (mkDb a b).content_type_db) :
    ∃ line, line ∈ b ∧ ∃ i, Info.new line = some i ∧ p = (i.content_type, i) :=
  mem_loadIndex hp

theorem get_ext_db_nil_eq_none (a b : List Str) :
    StrMap.get (mkDb a b).ext_db [] = none := by
  rw [StrMap.get_eq_none_iff]
  intro p hp
  obtain ⟨l, _, i, hi, rfl⟩ := mem_ext_db hp
  exact tokOK_ne_nil (Info.new_fields_tokOK hi).1

theorem get_ct_db_nil_eq_none (a b : List Str) :
    StrMap.get (mkDb a b).content_type_db [] = none := by
  rw [StrMap.get_eq_none_iff]
  intro p hp
  obtain ⟨l, _, i, hi, rfl⟩ := mem_ct_db hp
  exact tokOK_ne_nil (Info.new_fields_tokOK hi).2.1

theorem lookupByExtension_nil (a b : List Str) :
    lookupByExtension (mkDb a b) [] = none := by
  unfold lookupByExtension
  rw [get_ext_db_nil_eq_none a b]
  exact get_ext_db_nil_eq_none a b

theorem fileName_ne_dotdot {f comp : Str} (h : fileName f = some comp) :
    comp ≠ ['.', '.'] := by
  unfold fileName at h
  split at h
  · simp at h
  · split at h
    · simp at h
    · rename_i hne
      injection h with h
      subst h
      exact hne

theorem pathExtension_eq_amended (f : Str) :
    pathExtension f = amendedExtractExt f := by
  unfold pathExtension amendedExtractExt
  cases hfn : fileName f with
  | none => rfl
  | some comp =>
    have hdd := fileName_ne_dotdot hfn
    simp only [rustExtension, if_neg hdd]
    have hle : ((comp.reverse.takeWhile (fun c => c ≠ '.')).reverse).length ≤ comp.length := by
      have h1 := (List.takeWhile_sublist (l := comp.reverse) (fun c => c ≠ '.')).length_le
      simpa using h1
    by_cases h1 : ((comp.reverse.takeWhile (fun c => c ≠ '.')).reverse).length = comp.length
    · rw [if_pos h1, if_neg (by omega)]
    · rw [if_neg h1]
      by_cases h2 :
          ((comp.reverse.takeWhile (fun c => c ≠ '.')).reverse).length + 1 = comp.length
      · rw [if_pos h2, if_neg (by omega)]
      · rw [if_neg h2, if_pos (by omega)]

/-- C1 fails as stated on hidden files: for `.bashrc` the claim's
extraction rule (substring after the last `.` of the final segment) yields
`bashrc`, and the index holds a record under `bashrc`, yet
`lookup_by_filename` returns `none` (a leading `.` does not start an
extension in Rust path semantics). -/
theorem lookup_by_filename_hidden_file_cex :
    claimedExtractExt (str ".bashrc") = some (str "bashrc")
    ∧ lookupByExtension (mkDb [str "bashrc application/x-sh 8bit"] []) (str "bashrc")
        = some { extension := str "bashrc", content_type := str "application/x-sh",
                 encoding := str "8bit" }
    ∧ lookupByFilename (mkDb [str "bashrc application/x-sh 8bit"] []) (str ".bashrc")
        = none := by
  exact ⟨by decide, by decide, by decide⟩

/-- C1 (amended): `lookup_by_filename` extracts the extension of the final
path component, a leading `.` not counting as an extension separator; with
no extracted extension the result is absent; a component ending in `.`
extracts the empty extension, whose lookup is absent on every constructed
database; otherwise the result is exactly `lookup_by_extension` of the
extracted extension. -/
theorem lookup_by_filename_delegation (extLines ctLines : List Str) (f : Str) :
    pathExtension f = amendedExtractExt f
    ∧ (amendedExtractExt f = none →
        lookupByFilename (mkDb extLines ctLines) f = none)
    ∧ (amendedExtractExt f = some [] →
        lookupByFilename (mkDb extLines ctLines) f = none)
    ∧ (∀ e, amendedExtractExt f = some e →
        lookupByFilename (mkDb extLines ctLines) f
          = lookupByExtension (mkDb extLines ctLines) e) := by
  have hpa := pathExtension_eq_amended f
  refine ⟨hpa, ?_, ?_, ?_⟩
  · intro h
    unfold lookupByFilename
    rw [hpa, h]
  · intro h
    unfold lookupByFilename
    rw [hpa, h]
    exact lookupByExtension_nil extLines ctLines
  · intro e h
    unfold lookupByFilename
    rw [hpa, h]

/-- Witness for the amended C1: `x.pdf` delegates to the `pdf` lookup. -/
theorem lookup_by_filename_delegation_wit :
    lookupByFilename (mkDb [str "pdf application/pdf base64"] []) (str "x.pdf")
      = lookupByExtension (mkDb [str "pdf application/pdf base64"] []) (str "pdf") :=
  (lookup_by_filename_delegation [str "pdf application/pdf base64"] []
    (str "x.pdf")).2.2.2 (str "pdf") (by decide)

/-- C2: `Db::lookup_by_extension` is absent iff neither the extension nor
its lowercase form is a key of the extension index; when the exact form is
a key, its record is returned (the lowercased form is consulted only on an
exact miss). -/
theorem lookup_by_extension_exact_then_lowercase (extLines ctLines : List Str) (e : Str) :
    (lookupByExtension (mkDb extLines ctLines) e = none ↔
      (∀ p ∈ (mkDb extLines ctLines).ext_db, p.1 ≠ e) ∧
      (∀ p ∈ (mkDb extLines ctLines).ext_db, p.1 ≠ toLowercase e))
    ∧ (∀ r, StrMap.get (mkDb extLines ctLines).ext_db e = some r →
        lookupByExtension (mkDb extLines ctLines) e = some r)
    ∧ (StrMap.get (mkDb extLines ctLines).ext_db e = none →
        lookupByExtension (mkDb extLines ctLines) e
          = StrMap.get (mkDb extLines ctLines).ext_db (toLowercase e)) := by
  rw [← StrMap.get_eq_none_iff (mkDb extLines ctLines).ext_db e,
    ← StrMap.get_eq_none_iff (mkDb extLines ctLines).ext_db (toLowercase e)]
  unfold lookupByExtension
  cases h : StrMap.get (mkDb extLines ctLines).ext_db e <;> simp [h]

/-- Witness for C2: with distinct records under `ZIP` and `zip`, the
exact-case query returns the exact-case record. -/
theorem lookup_by_extension_exact_then_lowercase_wit :
    lookupByExtension
        (mkDb [str "ZIP application/zip-upper base64", str "zip application/zip 8bit"] [])
        (str "ZIP")
      = some { extension := str "ZIP", content_type := str "application/zip-upper",
               encoding := str "base64" } :=
  (lookup_by_extension_exact_then_lowercase
      [str "ZIP application/zip-upper base64", str "zip application/zip 8bit"] []
      (str "ZIP")).2.1
    { extension := str "ZIP", content_type := str "application/zip-upper",
      encoding := str "base64" }
    (by decide)

/-- C3: `Info::new` succeeds iff the line has at least 3 whitespace
tokens; on success the fields are tokens 1, 2, 3 and further tokens are
discarded; with fewer than 3 tokens it returns `none`. -/
theorem info_new_token_spec (line : Str) :
    ((Info.new line).isSome = true ↔ 3 ≤ (tokenize line).length)
    ∧ (∀ i, Info.new line = some i →
        (tokenize line).take 3 = [i.extension, i.content_type, i.encoding])
    ∧ ((tokenize line).length < 3 → Info.new line = none) := by
  unfold Info.new
  rcases htok : tokenize line with _ | ⟨e, _ | ⟨ct, _ | ⟨enc, rest⟩⟩⟩ <;>
    simp [htok]

/-- Witness for C3 at a concrete 4-token line: the fourth token is
discarded and the fields are the first three tokens. -/
theorem info_new_token_spec_wit :
    (tokenize (str "pdf application/pdf base64 x")).take 3
      = [str "pdf", str "application/pdf", str "base64"] :=
  (info_new_token_spec (str "pdf application/pdf base64 x")).2.1
    { extension := str "pdf", content_type := str "application/pdf",
      encoding := str "base64" }
    (by decide)

/-- C4: `Info::is_binary` is `true` iff the `encoding` field equals
exactly `base64` or exactly `8bit`, and `false` for every other value. -/
theorem is_binary_iff (i : Info) :
    i.is_binary = true ↔ (i.encoding = str "base64" ∨ i.encoding = str "8bit") := by
  simp only [Info.is_binary, BINARY_ENCODINGS, List.contains_cons, List.contains_nil,
    Bool.or_false, Bool.or_eq_true, beq_iff_eq]

/-- C5: `Db::lookup_by_content_type` is an exact-equality lookup: absent
iff the queried string is not a key of the content-type index (no case
folding, no trimming), and any returned record is the one stored under
exactly that key. -/
theorem lookup_by_content_type_exact (extLines ctLines : List Str) (c : Str) :
    (lookupByContentType (mkDb extLines ctLines) c = none ↔
      ∀ p ∈ (mkDb extLines ctLines).content_type_db, p.1 ≠ c)
    ∧ (∀ r, lookupByContentType (mkDb extLines ctLines) c = some r →
        (c, r) ∈ (mkDb extLines ctLines).content_type_db) := by
  constructor
  · exact StrMap.get_eq_none_iff (mkDb extLines ctLines).content_type_db c
  · intro r h
    exact StrMap.get_mem h

/-- Witness for C5: the `text/plain` record is a binding of the
content-type index under exactly that key. -/
theorem lookup_by_content_type_exact_wit :
    (str "text/plain",
        ({ extension := str "txt", content_type := str "text/plain",
           encoding := str "quoted-printable" } : Info))
      ∈ (mkDb [] [str "txt text/plain quoted-printable"]).content_type_db :=
  (lookup_by_content_type_exact [] [str "txt text/plain quoted-printable"]
      (str "text/plain")).2
    { extension := str "txt", content_type := str "text/plain",
      encoding := str "quoted-printable" }
    (by decide)

/-- C6: construction processes each dataset's lines in order; each parsed
record goes into the extension index keyed by its `extension` field and,
from the other dataset, into the content-type index keyed by its
`content_type` field, a later line overwriting an earlier one with the
same key, independently in each index. -/
theorem db_load_last_write_wins (extLines ctLines : List Str) (k : Str) :
    StrMap.get (mkDb extLines ctLines).ext_db k
        = specIndex (extLines.filterMap Info.new) (fun i => i.extension) k
    ∧ StrMap.get (mkDb extLines ctLines).content_type_db k
        = specIndex (ctLines.filterMap Info.new) (fun i => i.content_type) k :=
  ⟨loadIndex_get extLines (fun i => i.extension) k,
   loadIndex_get ctLines (fun i => i.content_type) k⟩

/-- C7: `Db::new` succeeds on every pair of (text-decodable, i.e.
representable) datasets — its error branch is unreachable — and a line
with fewer than 3 tokens is silently skipped: the constructed database is
the one built without that line. -/
theorem db_new_ok (extLines ctLines pre suf : List Str) (line : Str) :
    Db.new extLines ctLines = Except.ok (mkDb extLines ctLines)
    ∧ (Info.new line = none →
        Db.new (pre ++ line :: suf) ctLines = Db.new (pre ++ suf) ctLines
        ∧ Db.new extLines (pre ++ line :: suf) = Db.new extLines (pre ++ suf)) := by
  refine ⟨rfl, fun h => ⟨?_, ?_⟩⟩
  · unfold Db.new mkDb loadIndex
    rw [List.foldl_append, List.foldl_append, List.foldl_cons]
    rw [show loadStep (fun i => i.extension) (List.foldl (loadStep fun i => i.extension) [] pre) line
          = List.foldl (loadStep fun i => i.extension) [] pre by
        unfold loadStep; rw [h]]
  · unfold Db.new mkDb loadIndex
    rw [List.foldl_append, List.foldl_append, List.foldl_cons]
    rw [show loadStep (fun i => i.content_type) (List.foldl (loadStep fun i => i.content_type) [] pre) line
          = List.foldl (loadStep fun i => i.content_type) [] pre by
        unfold loadStep; rw [h]]

/-- Witness for C7: a 2-token line is skipped; building with it equals
building without it. -/
theorem db_new_ok_wit :
    Db.new ([] ++ str "a b" :: []) [] = Db.new ([] ++ []) [] :=
  ((db_new_ok [] [] [] [] (str "a b")).2 (by decide)).1

/-- C8: every record `Info::new` produces has non-empty extension, content
type and encoding (records are immutable values in this model), so every
record held in either index of a constructed database has three non-empty
fields. -/
theorem record_fields_nonempty (line : Str) (extLines ctLines : List Str) :
    (∀ i, Info.new line = some i →
      i.extension ≠ [] ∧ i.content_type ≠ [] ∧ i.encoding ≠ [])
    ∧ (∀ p ∈ (mkDb extLines ctLines).ext_db,
        p.2.extension ≠ [] ∧ p.2.content_type ≠ [] ∧ p.2.encoding ≠ [])
    ∧ (∀ p ∈ (mkDb extLines ctLines).content_type_db,
        p.2.extension ≠ [] ∧ p.2.content_type ≠ [] ∧ p.2.encoding ≠ []) := by
  have base : ∀ (l : Str) (i : Info), Info.new l = some i →
      i.extension ≠ [] ∧ i.content_type ≠ [] ∧ i.encoding ≠ [] := by
    intro l i hi
    obtain ⟨h1, h2, h3⟩ := Info.new_fields_tokOK hi
    exact ⟨tokOK_ne_nil h1, tokOK_ne_nil h2, tokOK_ne_nil h3⟩
  refine ⟨fun i h => base line i h, ?_, ?_⟩
  · intro p hp
    obtain ⟨l, _, i, hi, rfl⟩ := mem_ext_db hp
    exact base l i hi
  · intro p hp
    obtain ⟨l, _, i, hi, rfl⟩ := mem_ct_db hp
    exact base l i hi

/-- Witness for C8 at a concrete line. -/
theorem record_fields_nonempty_wit :
    str "pdf" ≠ ([] : Str) ∧ str "application/pdf" ≠ ([] : Str)
      ∧ str "base64" ≠ ([] : Str) :=
  (record_fields_nonempty (str "pdf application/pdf base64") [] []).1
    { extension := str "pdf", content_type := str "application/pdf",
      encoding := str "base64" }
    (by decide)

/-- C9: every key of either index of a constructed database is a
non-empty, whitespace-free token, and therefore looking up the empty
extension or the empty content type returns absent. -/
theorem index_keys_tokens (extLines ctLines : List Str) :
    (∀ p ∈ (mkDb extLines ctLines).ext_db,
      p.1 ≠ [] ∧ ∀ c ∈ p.1, isRustWhitespace c = false)
    ∧ (∀ p ∈ (mkDb extLines ctLines).content_type_db,
      p.1 ≠ [] ∧ ∀ c ∈ p.1, isRustWhitespace c = false)
    ∧ lookupByExtension (mkDb extLines ctLines) [] = none
    ∧ lookupByContentType (mkDb extLines ctLines) [] = none := by
  refine ⟨?_, ?_, lookupByExtension_nil extLines ctLines, ?_⟩
  · intro p hp
    obtain ⟨l, _, i, hi, rfl⟩ := mem_ext_db hp
    have h := (Info.new_fields_tokOK hi).1
    exact ⟨tokOK_ne_nil h, tokOK_no_ws h⟩
  · intro p hp
    obtain ⟨l, _, i, hi, rfl⟩ := mem_ct_db hp
    have h := (Info.new_fields_tokOK hi).2.1
    exact ⟨tokOK_ne_nil h, tokOK_no_ws h⟩
  · exact get_ct_db_nil_eq_none extLines ctLines

/-- Witness for C9 at a concrete database: the `pdf` key is a non-empty
whitespace-free token, and empty-string lookups are absent. -/
theorem index_keys_tokens_wit :
    lookupByExtension (mkDb [str "pdf application/pdf base64"] []) [] = none
    ∧ str "pdf" ≠ ([] : Str) :=
  ⟨(index_keys_tokens [str "pdf application/pdf base64"] []).2.2.1,
   ((index_keys_tokens [str "pdf application/pdf base64"] []).1
      (str "pdf",
        { extension := str "pdf", content_type := str "application/pdf",
          encoding := str "base64" })
      (by decide)).1⟩

/-- C10: `Info::new` depends only on the whitespace-delimited token
sequence: two lines assembled from the same tokens, with arbitrary leading
whitespace and arbitrary (non-empty between tokens) whitespace runs, parse
to equal results. -/
theorem info_new_whitespace_invariant
    (lead1 lead2 : Str) (ps1 ps2 : List (Str × Str))
    (h1 : wsOnly lead1 = true) (h2 : wsOnly lead2 = true)
    (hv1 : piecesValid ps1 = true) (hv2 : piecesValid ps2 = true)
    (htok : ps1.map (fun p => p.1) = ps2.map (fun p => p.1)) :
    Info.new (assemble lead1 ps1) = Info.new (assemble lead2 ps2) := by
  unfold Info.new
  rw [tokenize_assemble ps1 lead1 h1 hv1, tokenize_assemble ps2 lead2 h2 hv2, htok]

/-- Witness for C10: the same three tokens under different whitespace give
the same record. -/
theorem info_new_whitespace_invariant_wit :
    Info.new (assemble []
        [(str "pdf", [' ']), (str "application/pdf", [' ']), (str "base64", [])])
      = Info.new (assemble [' ', '\t']
        [(str "pdf", ['\t']), (str "application/pdf", [' ', ' ']), (str "base64", ['\n'])]) :=
  info_new_whitespace_invariant [] [' ', '\t']
    [(str "pdf", [' ']), (str "application/pdf", [' ']), (str "base64", [])]
    [(str "pdf", ['\t']), (str "application/pdf", [' ', ' ']), (str "base64", ['\n'])]
    (by decide) (by decide) (by decide) (by decide) (by decide)

end Minimime
